import Mathlib

/-!
Verification of the command-language core, key-dispatch pipeline and theme
colors of the pepper editor sources.

The Rust sources are shallowly embedded:
* strings are `List Char` (all characters the code inspects are ASCII, so
  byte indexing and `char` indexing agree on the inputs the claims mention);
* iterators with interior mutation become state-passing functions; loops
  whose termination is not structural take an explicit fuel argument and
  return a distinguished out-of-fuel value, so every definition is a
  computable structural recursion that the kernel can evaluate;
* `u8`/`u32` become `Nat` with explicit bounds or masks where overflow or
  truncation matters.
-/

deriving instance DecidableEq for Except

/-- Rust `char::is_ascii_whitespace`: space, tab, newline, carriage return,
form feed. -/
def isAsciiWhitespace (c : Char) : Bool :=
  c = ' ' || c = '\t' || c = '\n' || c = '\r' || c = '\x0c'

/-- Rust `str::trim_start` / `trim_start_matches(is_ascii_whitespace)`.
The sources only ever feed it ASCII whitespace, where the two coincide. -/
def trimStart (s : List Char) : List Char :=
  s.dropWhile isAsciiWhitespace

/-! ## theme.rs: Color -/

/-- `theme.rs`: `struct Color(pub u8, pub u8, pub u8)`; the three fields are
naturals assumed `< 256` where it matters. -/
structure Color where
  r : Nat
  g : Nat
  b : Nat
deriving DecidableEq

/-- `theme.rs` `Color::into_u32`: `r << 16 | g << 8 | b`. -/
def Color.into_u32 (c : Color) : Nat :=
  c.r <<< 16 ||| c.g <<< 8 ||| c.b

/-- `theme.rs` `Color::from_u32`: `((hex >> 16) & 0xff, (hex >> 8) & 0xff, hex & 0xff)`. -/
def Color.from_u32 (hex : Nat) : Color :=
  ⟨(hex >>> 16) &&& 0xff, (hex >>> 8) &&& 0xff, hex &&& 0xff⟩

/-! ## command.rs (src/src): token iterator -/

/-- `command.rs` `CommandTokenKind`. -/
inductive CommandTokenKind where
  | Text
  | Flag
  | Equals
  | Unterminated
deriving DecidableEq

/-- `command.rs` `CommandToken`: a half-open byte range into the command
source (`from` and `to` are Lean keywords, hence `frm`/`tto`). -/
structure CommandToken where
  frm : Nat
  tto : Nat
deriving DecidableEq

/-- `command.rs` `CommandToken::as_str`: `&command[self.from..self.to]`. -/
def CommandToken.asStr (t : CommandToken) (command : List Char) : List Char :=
  (command.drop t.frm).take (t.tto - t.frm)

/-- `command.rs` `find_balanced`: scans for the end of a balanced group,
starting with balance 1; returns the index of the closing byte. -/
def findBalancedAux (start stop : Char) : List Char → Nat → Nat → Option Nat
  | [], _, _ => none
  | b :: bs, bal, i =>
    if b = start then findBalancedAux start stop bs (bal + 1) (i + 1)
    else if b = stop then
      if bal = 1 then some i else findBalancedAux start stop bs (bal - 1) (i + 1)
    else findBalancedAux start stop bs bal (i + 1)

def find_balanced (bytes : List Char) (start stop : Char) : Option Nat :=
  findBalancedAux start stop bytes 1 0

/-- `command.rs` `CommandTokenIter`: remaining input plus the total length of
the original command, from which `current_from_index` is derived. -/
structure CommandTokenIter where
  rest : List Char
  len : Nat
deriving DecidableEq

def CommandTokenIter.new (command : List Char) : CommandTokenIter :=
  ⟨command, command.length⟩

/-- `CommandTokenIter::current_from_index`: `self.len - self.rest.len()`. -/
def CommandTokenIter.currentFromIndex (it : CommandTokenIter) : Nat :=
  it.len - it.rest.length

/-- `CommandTokenIter::next`'s helper `trim_until_boundary`: drop characters
up to the first ASCII whitespace or one of `"`, `'`, `{`, `=`. -/
def isTokenBoundary (c : Char) : Bool :=
  isAsciiWhitespace c || c = '"' || c = '\'' || c = '{' || c = '='

def trim_until_boundary (s : List Char) : List Char :=
  s.dropWhile (fun c => !isTokenBoundary c)

/-- `command.rs` `CommandTokenIter::next` (the `Iterator` impl): one token
step, returning the token and the advanced iterator. -/
def CommandTokenIter.next (it : CommandTokenIter) :
    Option ((CommandTokenKind × CommandToken) × CommandTokenIter) :=
  let len := it.len
  let rest := it.rest.dropWhile isAsciiWhitespace
  match rest with
  | [] => none
  | c :: cs =>
    if c = '"' || c = '\'' then
      match cs.findIdx? (· = c) with
      | some i =>
        let frm := len - cs.length
        some ((.Text, ⟨frm, frm + i⟩), ⟨cs.drop (i + 1), len⟩)
      | none =>
        let frm := len - cs.length
        some ((.Unterminated, ⟨frm, len⟩), ⟨[], len⟩)
    else if c = '{' then
      match find_balanced cs '{' '}' with
      | some i =>
        let frm := len - cs.length
        -- the source writes `to: i` here (where the quote branch writes
        -- `to: from + i`)
        some ((.Text, ⟨frm, i⟩), ⟨cs.drop (i + 1), len⟩)
      | none =>
        let frm := len - cs.length
        some ((.Unterminated, ⟨frm, len⟩), ⟨[], len⟩)
    else if c = '-' then
      let frm := len - (c :: cs).length
      let rest' := trim_until_boundary (c :: cs)
      some ((.Flag, ⟨frm, len - rest'.length⟩), ⟨rest', len⟩)
    else if c = '=' then
      let frm := len - (c :: cs).length
      some ((.Equals, ⟨frm, frm + 1⟩), ⟨cs, len⟩)
    else
      let frm := len - (c :: cs).length
      let rest' := trim_until_boundary (c :: cs)
      some ((.Text, ⟨frm, len - rest'.length⟩), ⟨rest', len⟩)

/-- Repeatedly apply `CommandTokenIter.next`, collecting all emitted tokens
(fuel-bounded so the kernel can evaluate it). -/
def commandTokens : Nat → CommandTokenIter → List (CommandTokenKind × CommandToken)
  | 0, _ => []
  | fuel + 1, it =>
    match it.next with
    | none => []
    | some (tok, it') => tok :: commandTokens fuel it'

example :
    commandTokens 8 (CommandTokenIter.new "value -flag".toList) =
      [(.Text, ⟨0, 5⟩), (.Flag, ⟨6, 11⟩)] := by decide

example :
    commandTokens 8 (CommandTokenIter.new "'aa' \"b\" c".toList) =
      [(.Text, ⟨1, 3⟩), (.Text, ⟨6, 7⟩), (.Text, ⟨9, 10⟩)] := by decide

/-! ## command.rs (src/src): errors, arguments, flags -/

/-- `command.rs` `CommandError` (the constructors reachable from parsing and
argument binding; evaluation-only constructors are irrelevant here). -/
inductive CommandError where
  | InvalidCommandName (token : CommandToken)
  | CommandNotFound (token : CommandToken)
  | CommandDoesNotAcceptBang
  | UnterminatedToken (token : CommandToken)
  | InvalidToken (token : CommandToken)
  | TooFewArguments (token : CommandToken) (len : Nat)
  | TooManyArguments (token : CommandToken) (len : Nat)
  | UnknownFlag (token : CommandToken)
deriving DecidableEq

/-- `command.rs` `CommandValue`: a token reference or a register key. -/
inductive CommandValue where
  | Token (token : CommandToken)
  | Register (key : Char)
deriving DecidableEq

/-- `command.rs` `CommandArgs`: bang flag, the mid-command token iterator and
the `len` positional counter (`u8` in the source; it stays far below 256 in
everything proved here). -/
structure CommandArgs where
  bang : Bool
  tokens : CommandTokenIter
  len : Nat
deriving DecidableEq

/-- `CommandArgs::assert_no_bang`. -/
def CommandArgs.assert_no_bang (args : CommandArgs) : Except CommandError Unit :=
  if args.bang then .error .CommandDoesNotAcceptBang else .ok ()

/-- `flags.iter_mut().find(|(k, _)| *k == key)` succeeds. -/
def hasFlag (flags : List (List Char × Option CommandValue)) (key : List Char) : Bool :=
  flags.any (fun kv => kv.1 = key)

/-- Assignment through the mutable reference returned by
`flags.iter_mut().find(...)`: replace the first entry with that key. -/
def setFlag : List (List Char × Option CommandValue) → List Char → Option CommandValue →
    List (List Char × Option CommandValue)
  | [], _, _ => []
  | kv :: rest, key, v =>
    if kv.1 = key then (kv.1, v) :: rest else kv :: setFlag rest key v

/-- The loop of `CommandArgs::get_flags`, over a fresh token iterator on
`raw = self.tokens.rest`; token ranges index into `raw`.  `none` means the
fuel ran out (the Rust loop always terminates; fuel `raw.length + 1`
suffices). -/
def getFlagsLoop (raw : List Char) :
    Nat → CommandTokenIter → List (List Char × Option CommandValue) →
    Option (Except CommandError (List (List Char × Option CommandValue)))
  | 0, _, _ => none
  | fuel + 1, tokens, flags =>
    match tokens.next with
    | none => some (.ok flags)
    | some ((kind, token), tokens1) =>
      match kind with
      | .Text => getFlagsLoop raw fuel tokens1 flags
      | .Flag =>
        let key := (token.asStr raw).drop 1
        if hasFlag flags key then
          -- `previous_state` is the iterator state right after the flag token
          match tokens1.next with
          | some ((.Text, vtok), tokens2) =>
            getFlagsLoop raw fuel tokens2 (setFlag flags key (some (.Token vtok)))
          | some ((.Flag, vtok), _) =>
            -- `tokens.rest = previous_state`, value = the *next flag's* token
            getFlagsLoop raw fuel tokens1 (setFlag flags key (some (.Token vtok)))
          | some ((.Equals, etok), tokens2) =>
            (match tokens2.next with
             | some ((.Text, vtok), tokens3) =>
               getFlagsLoop raw fuel tokens3 (setFlag flags key (some (.Token vtok)))
             | some ((.Flag, vtok), _) | some ((.Equals, vtok), _) =>
               some (.error (.InvalidToken vtok))
             | some ((.Unterminated, vtok), _) =>
               some (.error (.UnterminatedToken vtok))
             | none => some (.error (.InvalidToken etok)))
          | some ((.Unterminated, vtok), _) =>
            some (.error (.UnterminatedToken vtok))
          | none => some (.ok (setFlag flags key (some (.Token token))))
        else some (.error (.UnknownFlag token))
      | .Equals => some (.error (.InvalidToken token))
      | .Unterminated => some (.error (.UnterminatedToken token))

/-- `CommandArgs::get_flags` (`&self`: the args' own iterator is not
advanced). -/
def CommandArgs.get_flags (args : CommandArgs)
    (flags : List (List Char × Option CommandValue)) (fuel : Nat) :
    Option (Except CommandError (List (List Char × Option CommandValue))) :=
  getFlagsLoop args.tokens.rest fuel (CommandTokenIter.new args.tokens.rest) flags

/-- The loop of `CommandArgs::try_next`. -/
def tryNextLoop :
    Nat → CommandTokenIter →
    Option (Except CommandError (Option CommandToken × CommandTokenIter))
  | 0, _ => none
  | fuel + 1, tokens =>
    match tokens.next with
    | some ((.Text, token), tokens1) => some (.ok (some token, tokens1))
    | some ((.Flag, _), tokens1) =>
      -- `previous_state` is the iterator state right after the flag token
      (match tokens1.next with
       | some ((.Text, token), tokens2) => some (.ok (some token, tokens2))
       | some ((.Flag, _), _) => tryNextLoop fuel tokens1
       | some ((.Equals, _), tokens2) =>
         (match tokens2.next with
          | some (_, tokens3) => tryNextLoop fuel tokens3
          | none => tryNextLoop fuel tokens2)
       | some ((.Unterminated, token), _) => some (.error (.UnterminatedToken token))
       | none => some (.ok (none, tokens1)))
    | some ((.Equals, token), _) => some (.error (.InvalidToken token))
    | some ((.Unterminated, token), _) => some (.error (.UnterminatedToken token))
    | none => some (.ok (none, tokens))

/-- `CommandArgs::try_next`: `self.len += 1`, then the skipping loop. -/
def CommandArgs.try_next (args : CommandArgs) (fuel : Nat) :
    Option (Except CommandError (Option CommandToken × CommandArgs)) :=
  match tryNextLoop fuel args.tokens with
  | none => none
  | some (.error e) => some (.error e)
  | some (.ok (tok, tokens')) =>
    some (.ok (tok, { args with tokens := tokens', len := args.len + 1 }))

/-- The loop of `CommandArgs::assert_empty`. -/
def assertEmptyLoop :
    Nat → CommandTokenIter → Nat → Option (Except CommandError Unit)
  | 0, _, _ => none
  | fuel + 1, tokens, len =>
    match tokens.next with
    | some ((.Text, token), _) => some (.error (.TooManyArguments token len))
    | some ((.Flag, _), tokens1) =>
      (match tokens1.next with
       | some ((.Text, token), _) => some (.error (.TooManyArguments token len))
       | some ((.Flag, _), tokens2) => assertEmptyLoop fuel tokens2 len
       | some ((.Equals, _), tokens2) =>
         (match tokens2.next with
          | some (_, tokens3) => assertEmptyLoop fuel tokens3 len
          | none => assertEmptyLoop fuel tokens2 len)
       | some ((.Unterminated, token), _) => some (.error (.UnterminatedToken token))
       | none => assertEmptyLoop fuel tokens1 len)
    | some ((.Equals, token), _) => some (.error (.InvalidToken token))
    | some ((.Unterminated, token), _) => some (.error (.UnterminatedToken token))
    | none => some (.ok ())

/-- Collect all positional arguments by calling `try_next` until it returns
`None`, as the source's test helper `collect` does. -/
def collectPositionals : Nat → CommandArgs → Option (Except CommandError (List CommandToken))
  | 0, _ => none
  | fuel + 1, args =>
    match args.try_next (fuel + 1) with
    | none => none
    | some (.error e) => some (.error e)
    | some (.ok (none, _)) => some (.ok [])
    | some (.ok (some tok, args')) =>
      match collectPositionals fuel args' with
      | none => none
      | some (.error e) => some (.error e)
      | some (.ok toks) => some (.ok (tok :: toks))

/-! ## command.rs (src/src): command manager, resolution, history, macros -/

/-- `command.rs` `CommandSource`. -/
inductive CommandSource where
  | Builtin (i : Nat)
  | Macro (i : Nat)
  | Request (i : Nat)
deriving DecidableEq

/-- `command.rs` `BuiltinCommand`: only the fields `find_command` consults
(`name`, `alias`); the handler `func` is an arbitrary native function and the
help/completion metadata plays no role in the claims. -/
structure BuiltinCommand where
  name : List Char
  aliasName : List Char
deriving DecidableEq

/-- `command.rs` `MacroCommand` (the `help`/`hidden`/`source_path` metadata
plays no role in the claims). -/
structure MacroCommand where
  name : List Char
  params : List (List Char)
  commands : List Char
deriving DecidableEq

/-- `command.rs` `RequestCommand` (`client_handle` as a bare index). -/
structure RequestCommand where
  name : List Char
  clientHandle : Nat
deriving DecidableEq

/-- `command.rs` `CommandManager`: the three command tables plus the history
ring (spawned processes are irrelevant to the claims). -/
structure CommandManager where
  builtin_commands : List BuiltinCommand
  macro_commands : List MacroCommand
  request_commands : List RequestCommand
  history : List (List Char)
deriving DecidableEq

/-- `command.rs` `CommandManager::find_command`: macro table, then request
table, then builtin table (matching `alias` or `name`). -/
def CommandManager.find_command (cm : CommandManager) (name : List Char) :
    Option CommandSource :=
  match cm.macro_commands.findIdx? (fun c => c.name = name) with
  | some i => some (.Macro i)
  | none =>
    match cm.request_commands.findIdx? (fun c => c.name = name) with
    | some i => some (.Request i)
    | none =>
      match cm.builtin_commands.findIdx? (fun c => c.aliasName = name || c.name = name) with
      | some i => some (.Builtin i)
      | none => none

/-- `command.rs` `CommandManager::parse`: first token must be `Text`; strip
one optional trailing `!` as the bang; empty remaining name fails; then
resolve through `find_command`. -/
def CommandManager.parse (cm : CommandManager) (text : List Char) :
    Except CommandError (CommandSource × CommandArgs) :=
  let tokens := CommandTokenIter.new text
  match tokens.next with
  | some ((.Text, commandToken), tokens1) =>
    let commandName := commandToken.asStr text
    -- `command_name.strip_suffix('!')`
    let nameBang : List Char × Bool :=
      if commandName.getLast? = some '!' then (commandName.dropLast, true)
      else (commandName, false)
    if nameBang.1 = [] then .error (.InvalidCommandName commandToken)
    else
      match cm.find_command nameBang.1 with
      | some source => .ok (source, ⟨nameBang.2, tokens1, 0⟩)
      | none => .error (.CommandNotFound commandToken)
  | some ((_, token), _) => .error (.InvalidCommandName token)
  | none => .error (.InvalidCommandName ⟨0, 0⟩)

/-- `command.rs` `HISTORY_CAPACITY`. -/
def HISTORY_CAPACITY : Nat := 10

/-- `command.rs` (src/src) `CommandManager::add_to_history`, on the history
list alone (front of the list = front of the `VecDeque`).  `cap` stands for
`self.history.capacity()`: the deque is created with
`with_capacity(HISTORY_CAPACITY)`, which guarantees a capacity of *at least*
`HISTORY_CAPACITY` (exactly that much only when the allocator honours the
request exactly), and `push_back` only ever runs when `len < capacity`, so
the capacity never changes afterwards.  The recycling of the popped `String`
is an allocation detail with no observable effect on the entries. -/
def add_to_history (cap : Nat) (history : List (List Char)) (entry : List Char) :
    List (List Char) :=
  if entry.isEmpty ||
      (match entry.head? with | some c => isAsciiWhitespace c | none => false) then
    history
  else if history.getLast? = some entry then history
  else if history.length = cap then history.tail ++ [entry]
  else history ++ [entry]

/-- `command.rs` (lib) `CommandManager::add_to_history`: this generation
guards only against empty entries — there is no leading-whitespace check and
no duplicate-of-back check.  `cap` is `self.history.capacity()` as above. -/
def add_to_history_lib (cap : Nat) (history : List (List Char))
    (entry : List Char) : List (List Char) :=
  if entry.isEmpty then history
  else if history.length = cap then history.tail ++ [entry]
  else history ++ [entry]

/-- The macro branch of `CommandManager::eval`, up to the start of the body
iteration: `assert_no_bang`, `get_flags(&mut [])`, the body copy (the
parameter-substitution loop is commented out in the source under
`// TODO: macro params`), and `assert_empty`.  Returns the command string
that will then be iterated as the sub-script. -/
def evalMacroPrep (m : MacroCommand) (args : CommandArgs) (fuel : Nat) :
    Option (Except CommandError (List Char)) :=
  match args.assert_no_bang with
  | .error e => some (.error e)
  | .ok _ =>
    match args.get_flags [] fuel with
    | none => none
    | some (.error e) => some (.error e)
    | some (.ok _) =>
      let commands := m.commands
      match assertEmptyLoop fuel args.tokens args.len with
      | none => none
      | some (.error e) => some (.error e)
      | some (.ok _) => some (.ok commands)

/-- The command manager of the source's own test module: one builtin,
`command-name` aliased `c`. -/
def testCommands : CommandManager :=
  { builtin_commands := [⟨"command-name".toList, "c".toList⟩]
    macro_commands := []
    request_commands := []
    history := [] }

example : testCommands.parse "command-name".toList =
    .ok (.Builtin 0, ⟨false, ⟨[], 12⟩, 0⟩) := by decide

example : testCommands.parse "  command-name!  ".toList =
    .ok (.Builtin 0, ⟨true, ⟨"  ".toList, 17⟩, 0⟩) := by decide

/-! ## The script iterators: `CommandIter` in src/src/command.rs and in
lib/command.rs

Both are `loop { trim_start; scan for a terminator }` iterators.  The inner
scan is embedded as a function from (characters already committed to the
current command, reversed) and (remaining input) to a scan outcome; every
recursion is fuel-bounded. -/

/-- Outcome of the inner scan loop of `CommandIter::next`. -/
inductive ScanResult where
  | yields (cmd rest : List Char)  -- `return Some(command)`, with the new `self.0`
  | skip (rest : List Char)        -- empty command: `break` back to the outer loop
  | panic                          -- out-of-bounds `bytes[i]` (lib version only)
  | fuelOut
deriving DecidableEq

/-- Inner scan of `CommandIter::next` in src/src/command.rs: terminators
`\n`, `;`, `#`; `{` skips over a balanced group; an unterminated group takes
the rest of the input. -/
def scanSrc : Nat → List Char → List Char → ScanResult
  | 0, _, _ => .fuelOut
  | fuel + 1, seen, rest =>
    match rest with
    | [] => .yields seen.reverse []
    | c :: cs =>
      if c = '\n' then
        if seen = [] then .skip (c :: cs) else .yields seen.reverse (c :: cs)
      else if c = ';' then
        if seen = [] then .skip cs else .yields seen.reverse cs
      else if c = '{' then
        match find_balanced cs '{' '}' with
        | some j => scanSrc fuel ((cs.take (j + 1)).reverse ++ c :: seen) (cs.drop (j + 1))
        | none => .yields (seen.reverse ++ c :: cs) []
      else if c = '#' then
        let cmd := seen.reverse
        let rest' := (c :: cs).dropWhile (· ≠ '\n')
        if cmd = [] then .skip rest' else .yields cmd rest'
      else scanSrc fuel (c :: seen) cs

/-- Inner scan of `CommandIter::next` in lib/command.rs: terminators `\n`
and `#`; a `\` skips the following character (`b'\\' => i += 1` plus the
loop's own `i += 1`), so a `\`-escaped character is never inspected; a `\`
as the very last byte makes the source index `bytes[i]` past the end. -/
def scanLib : Nat → List Char → List Char → ScanResult
  | 0, _, _ => .fuelOut
  | fuel + 1, seen, rest =>
    match rest with
    | [] => .yields seen.reverse []
    | c :: cs =>
      if c = '\n' then
        if seen = [] then .skip (c :: cs) else .yields seen.reverse (c :: cs)
      else if c = '\\' then
        match cs with
        | [] => .panic
        | d :: ds => scanLib fuel (d :: c :: seen) ds
      else if c = '#' then
        let cmd := seen.reverse
        let rest' := (c :: cs).dropWhile (· ≠ '\n')
        if cmd = [] then .skip rest' else .yields cmd rest'
      else scanLib fuel (c :: seen) cs

/-- Outcome of one `CommandIter::next` call. -/
inductive IterStep where
  | done
  | yields (cmd rest : List Char)
  | panic
  | fuelOut
deriving DecidableEq

/-- `CommandIter::next` (src/src): outer trim/retry loop around `scanSrc`. -/
def cmdNextSrc : Nat → List Char → IterStep
  | 0, _ => .fuelOut
  | fuel + 1, s =>
    let t := trimStart s
    if t.isEmpty then .done
    else
      match scanSrc (fuel + 1) [] t with
      | .yields cmd rest => .yields cmd rest
      | .skip rest => cmdNextSrc fuel rest
      | .panic => .panic
      | .fuelOut => .fuelOut

/-- `CommandIter::next` (lib): outer trim/retry loop around `scanLib`. -/
def cmdNextLib : Nat → List Char → IterStep
  | 0, _ => .fuelOut
  | fuel + 1, s =>
    let t := trimStart s
    if t.isEmpty then .done
    else
      match scanLib (fuel + 1) [] t with
      | .yields cmd rest => .yields cmd rest
      | .skip rest => cmdNextLib fuel rest
      | .panic => .panic
      | .fuelOut => .fuelOut

/-- All commands yielded by the src/src `CommandIter`. -/
def commandIterSrc : Nat → List Char → List (List Char)
  | 0, _ => []
  | fuel + 1, s =>
    match cmdNextSrc (fuel + 1) s with
    | .yields cmd rest => cmd :: commandIterSrc fuel rest
    | _ => []

/-- All commands yielded by the lib `CommandIter`. -/
def commandIterLib : Nat → List Char → List (List Char)
  | 0, _ => []
  | fuel + 1, s =>
    match cmdNextLib (fuel + 1) s with
    | .yields cmd rest => cmd :: commandIterLib fuel rest
    | _ => []

-- the multi_command_line_parsing cases of the source's test module
example : commandIterSrc 64 "command0\n\n\ncommand1".toList =
    ["command0".toList, "command1".toList] := by decide
example : commandIterSrc 64 "command0 \x7b\n still command0\n\x7d\ncommand1".toList =
    ["command0 \x7b\n still command0\n\x7d".toList, "command1".toList] := by decide
example : commandIterSrc 64 ";;  command0;   ;;command1   ;".toList =
    ["command0".toList, "command1   ".toList] := by decide
example : commandIterSrc 64 "command0 # command1".toList =
    ["command0 ".toList] := by decide
example : commandIterSrc 64 "   #command0".toList = [] := by decide
example : commandIterLib 64 "command0\\\n still command0\ncommand1".toList =
    ["command0\\\n still command0".toList, "command1".toList] := by decide

/-! ## editor.rs: buffered keys and key dispatch -/

/-- `platform::Key` is a key code plus modifier flags; nothing in the claims
inspects them, so a bare code stands in for the record. -/
structure Key where
  code : Nat
deriving DecidableEq

/-- `editor_utils::MatchResult`, the key-map matcher's answer. -/
inductive MatchResult where
  | None
  | Prefix
  | ReplaceWith (keys : List Key)

/-- `editor.rs` `EditorFlow`. -/
inductive EditorFlow where
  | Continue
  | Suspend
  | Quit
  | QuitAll
deriving DecidableEq

/-- The `loop` of `Editor::execute_keys`: while the consumed index is behind
the buffer end, call the current mode's `on_keys`.  `onKeys` abstracts
`Mode::on_keys`, which consumes a prefix of the buffered keys (advancing the
iterator index) and returns `Option<EditorFlow>`; macro recording and
`trigger_event_handlers` do not touch the buffered keys, so they do not
appear.  `none` is fuel exhaustion. -/
def executeKeysLoop (onKeys : List Key → Nat → Nat × Option EditorFlow) :
    Nat → List Key → Nat → Nat → Option (List Key × EditorFlow)
  | 0, _, _, _ => none
  | fuel + 1, buffered, startIndex, index =>
    if index = buffered.length then
      -- loop exit: `buffered_keys.0.truncate(start_index)`
      some (buffered.take startIndex, .Continue)
    else
      match onKeys buffered index with
      | (_, none) =>
        -- mode yielded: `return EditorFlow::Continue` (no truncation)
        some (buffered, .Continue)
      | (index', some .Continue) => executeKeysLoop onKeys fuel buffered startIndex index'
      | (_, some flow) =>
        -- `enter_mode(default)`, truncate to `start_index`, propagate `flow`
        some (buffered.take startIndex, flow)

/-- `editor.rs` `Editor::execute_keys`: key-map match on `buffered[start..]`,
then the mode loop.  `keymapsMatches` abstracts `keymaps.matches` for the
current mode. -/
def execute_keys (keymapsMatches : List Key → MatchResult)
    (onKeys : List Key → Nat → Nat × Option EditorFlow)
    (fuel : Nat) (buffered : List Key) (index : Nat) :
    Option (List Key × EditorFlow) :=
  let startIndex := index
  match keymapsMatches (buffered.drop startIndex) with
  | .None => executeKeysLoop onKeys fuel buffered startIndex index
  | .Prefix =>
    -- `return EditorFlow::Continue` (no truncation: the prefix stays buffered)
    some (buffered, .Continue)
  | .ReplaceWith keys =>
    let buffered' := buffered.take startIndex ++ keys
    executeKeysLoop onKeys fuel buffered' startIndex index

/-- `editor.rs` `BufferedKeys::parse`.  The key-spec helper `KeyParser`
lives in events.rs, which is not among the provided sources.
Modelled from the spec: "Parsing textual key specs (e.g. `<c-x>`, `<esc>`)
is delegated to a helper" — the helper is abstracted as the stream of
`Result<Key, KeyParseAllError>` items it yields for the given spec, so the
function below is exactly the source's loop over `KeyParser::new(keys)`:
push each `Ok` key, and on the first `Err` truncate back to the pre-parse
length and fail. -/
def bufferedKeysParseGo (index : Nat) :
    List Key → List (Except Unit Key) → List Key × Option Nat
  | buf, [] => (buf, some index)
  | buf, .ok k :: rest => bufferedKeysParseGo index (buf ++ [k]) rest
  | buf, .error _ :: _ => (buf.take index, none)

/-- `BufferedKeys::parse`: `index = self.as_slice().len()`, then the parser
loop; on success the returned `KeysIterator` starts at `index`. -/
def bufferedKeysParse (buf : List Key) (results : List (Except Unit Key)) :
    List Key × Option Nat :=
  bufferedKeysParseGo buf.length buf results

/-! ## Theorems -/

/-- Disjoint bitwise-or is addition: `a <<< k ||| b = a * 2 ^ k + b` when
`b < 2 ^ k`. -/
theorem shiftLeft_or_eq_add (a b k : Nat) (h : b < 2 ^ k) :
    a <<< k ||| b = a * 2 ^ k + b := by
  rw [Nat.shiftLeft_eq, Nat.mul_comm]
  exact (Nat.mul_add_lt_is_or h a).symm

/-- `Color::into_u32` in plain arithmetic, under the `u8` field bounds. -/
theorem into_u32_arith (c : Color) (hg : c.g < 256) (hb : c.b < 256) :
    c.into_u32 = c.r * 65536 + c.g * 256 + c.b := by
  unfold Color.into_u32
  have h2 : c.r <<< 16 ||| c.g <<< 8 = c.r * 65536 + c.g * 256 := by
    rw [Nat.shiftLeft_eq c.g 8]
    have := shiftLeft_or_eq_add c.r (c.g * 256) 16 (by omega)
    simpa using this
  rw [h2]
  calc c.r * 65536 + c.g * 256 ||| c.b
      = (c.r * 256 + c.g) <<< 8 ||| c.b := by
        rw [Nat.shiftLeft_eq]; ring_nf
    _ = (c.r * 256 + c.g) * 2 ^ 8 + c.b := shiftLeft_or_eq_add _ _ 8 (by omega)
    _ = c.r * 65536 + c.g * 256 + c.b := by ring

/-- `Color::from_u32` in plain arithmetic. -/
theorem from_u32_arith (h : Nat) :
    Color.from_u32 h = ⟨h / 65536 % 256, h / 256 % 256, h % 256⟩ := by
  unfold Color.from_u32
  have e1 : h >>> 16 = h / 65536 := Nat.shiftRight_eq_div_pow h 16
  have e2 : h >>> 8 = h / 256 := Nat.shiftRight_eq_div_pow h 8
  have m1 : h >>> 16 &&& 0xff = (h >>> 16) % 256 := Nat.and_pow_two_sub_one_eq_mod _ 8
  have m2 : h >>> 8 &&& 0xff = (h >>> 8) % 256 := Nat.and_pow_two_sub_one_eq_mod _ 8
  have m3 : h &&& 0xff = h % 256 := Nat.and_pow_two_sub_one_eq_mod _ 8
  rw [m1, m2, m3, e1, e2]

/-- C10: `Color::into_u32` and `Color::from_u32` are mutually inverse on
their ranges: for every `Color` with `u8` fields, `from_u32 (into_u32 c) = c`
and `into_u32 c ≤ 0xFFFFFF`; for every `u32` value `h`,
`into_u32 (from_u32 h) = h % 2 ^ 24` (the top byte is discarded). -/
theorem color_u32_roundtrip (c : Color) (hr : c.r < 256) (hg : c.g < 256)
    (hb : c.b < 256) (h : Nat) (hh : h < 2 ^ 32) :
    Color.from_u32 c.into_u32 = c ∧ c.into_u32 ≤ 0xFFFFFF ∧
    Color.into_u32 (Color.from_u32 h) = h % 2 ^ 24 := by
  have hi := into_u32_arith c hg hb
  refine ⟨?_, ?_, ?_⟩
  · rw [hi, from_u32_arith]
    have hc : c = ⟨c.r, c.g, c.b⟩ := rfl
    rw [hc]
    simp only [Color.mk.injEq]
    refine ⟨by omega, by omega, by omega⟩
  · rw [hi]; omega
  · rw [from_u32_arith]
    have hb2 : (h / 256 % 256 : Nat) < 256 := Nat.mod_lt _ (by norm_num)
    have hb3 : (h % 256 : Nat) < 256 := Nat.mod_lt _ (by norm_num)
    rw [into_u32_arith ⟨h / 65536 % 256, h / 256 % 256, h % 256⟩ hb2 hb3]
    show h / 65536 % 256 * 65536 + h / 256 % 256 * 256 + h % 256 = h % 2 ^ 24
    omega

/-- Witness for C10 at the gruvbox background `0x1d2021` = (29, 32, 33) and
at `0xAB123456`. -/
theorem color_u32_roundtrip_witness :
    (29 : Nat) < 256 ∧ (32 : Nat) < 256 ∧ (33 : Nat) < 256 ∧
    (0xAB123456 : Nat) < 2 ^ 32 ∧
    (Color.from_u32 (Color.into_u32 ⟨29, 32, 33⟩) = ⟨29, 32, 33⟩ ∧
      Color.into_u32 ⟨29, 32, 33⟩ ≤ 0xFFFFFF ∧
      Color.into_u32 (Color.from_u32 0xAB123456) = 0xAB123456 % 2 ^ 24) :=
  ⟨by decide, by decide, by decide, by decide,
    color_u32_roundtrip ⟨29, 32, 33⟩ (by decide) (by decide) (by decide)
      0xAB123456 (by decide)⟩

/-- A history entry the invariant allows: non-empty and not starting with
ASCII whitespace (the negation of `add_to_history`'s rejection guard). -/
def historyEntryOk (e : List Char) : Bool :=
  !(e.isEmpty || (match e.head? with | some c => isAsciiWhitespace c | none => false))

/-- The C5 invariant, over the deque's actual capacity `cap`: bounded by the
capacity, no two adjacent equal entries, and every entry is non-empty with a
non-whitespace first character. -/
def historyOk (cap : Nat) (h : List (List Char)) : Prop :=
  h.length ≤ cap ∧ List.Chain' (· ≠ ·) h ∧ h.all historyEntryOk = true

theorem getLast?_tail (l : List (List Char)) (hne : l.tail ≠ []) :
    l.tail.getLast? = l.getLast? := by
  match l with
  | [] => simp at hne
  | [a] => simp at hne
  | a :: b :: u => simp [List.getLast?_cons_cons]

theorem add_to_history_preserves (cap : Nat) (hcap : 1 ≤ cap)
    (h : List (List Char)) (e : List Char)
    (ok : historyOk cap h) : historyOk cap (add_to_history cap h e) := by
  obtain ⟨hlen, hchain, hall⟩ := ok
  unfold add_to_history
  split
  · exact ⟨hlen, hchain, hall⟩
  · split
    · exact ⟨hlen, hchain, hall⟩
    · rename_i hrej hdup
      have hok : historyEntryOk e = true := by
        simp only [historyEntryOk]
        simpa using hrej
      split
      · rename_i hfull
        refine ⟨?_, ?_, ?_⟩
        · have hne : h ≠ [] := by
            intro hn; rw [hn] at hfull; simp at hfull; omega
          have ht : h.tail.length = h.length - 1 := List.length_tail h
          have h1 : 1 ≤ h.length := by
            cases h
            · exact absurd rfl hne
            · simp
          simp only [List.length_append, ht, hfull, List.length_cons,
            List.length_nil]
          omega
        · rw [List.chain'_append]
          refine ⟨List.Chain'.tail hchain, List.chain'_singleton e, ?_⟩
          intro x hx y hy
          simp at hy
          subst hy
          intro hxe
          subst hxe
          rcases htne : h.tail with _ | ⟨b, u⟩
          · rw [htne] at hx; simp at hx
          · rw [getLast?_tail h (by rw [htne]; simp)] at hx
            exact hdup hx
        · have htail : h.tail.all historyEntryOk = true := by
            cases h <;> simp_all [List.all_cons]
          simp [List.all_append, List.all_cons, htail, hok]
      · refine ⟨?_, ?_, ?_⟩
        · rename_i hnotfull
          have : h.length < cap := Nat.lt_of_le_of_ne hlen hnotfull
          simp [List.length_append]
          omega
        · rw [List.chain'_append]
          refine ⟨hchain, List.chain'_singleton e, ?_⟩
          intro x hx y hy
          simp at hy
          subst hy
          intro hxe
          subst hxe
          exact hdup hx
        · simp [List.all_append, List.all_cons, hall, hok]

/-- C5 (amended): for the src/src generation of `add_to_history`, after any
sequence of calls starting from the fresh (empty) history, the history never
has two adjacent equal entries, never an empty or leading-whitespace entry,
and never more entries than the deque's fixed capacity `cap`, where
`with_capacity(HISTORY_CAPACITY)` guarantees `HISTORY_CAPACITY ≤ cap`
(and `cap = 10` exactly when the allocation is exact).  The lib generation
guarantees none of this beyond non-emptiness (see the counterexample). -/
theorem src_history_invariants (cap : Nat) (hcap : HISTORY_CAPACITY ≤ cap)
    (entries : List (List Char)) :
    historyOk cap (entries.foldl (add_to_history cap) []) := by
  have hcap1 : 1 ≤ cap := le_trans (by decide) hcap
  suffices step : ∀ acc, historyOk cap acc →
      historyOk cap (entries.foldl (add_to_history cap) acc) by
    exact step [] ⟨by simp, List.chain'_nil, rfl⟩
  induction entries with
  | nil => intro acc ok; exact ok
  | cons e rest ih =>
    intro acc ok
    exact ih (add_to_history cap acc e) (add_to_history_preserves cap hcap1 acc e ok)

/-- Witness for C5 (amended) at capacity 10 and a concrete call sequence
containing a duplicate, a leading-whitespace entry and an empty entry. -/
theorem src_history_invariants_witness :
    HISTORY_CAPACITY ≤ 10 ∧
    historyOk 10 (List.foldl (add_to_history 10) []
      ["a".toList, "a".toList, " b".toList, "".toList, "c".toList]) :=
  ⟨by decide, src_history_invariants 10 (by decide) _⟩

/-- C5 counterexample: the claim also covers the lib generation of
`add_to_history` (lib/command.rs), which guards only against empty entries:
from a fresh history, the calls `"a"`, `"a"`, `" b"` leave the history
`["a", "a", " b"]` — two adjacent equal entries and an entry starting with
ASCII whitespace — so the claimed invariant is false for that cited code. -/
theorem lib_history_stores_duplicates_and_whitespace :
    List.foldl (add_to_history_lib 10) []
        ["a".toList, "a".toList, " b".toList] =
      ["a".toList, "a".toList, " b".toList] ∧
    ¬ historyOk 10 (List.foldl (add_to_history_lib 10) []
        ["a".toList, "a".toList, " b".toList]) := by
  refine ⟨by decide, ?_⟩
  intro hok
  obtain ⟨-, -, hall⟩ := hok
  rw [show List.foldl (add_to_history_lib 10) []
        ["a".toList, "a".toList, " b".toList] =
      ["a".toList, "a".toList, " b".toList] by decide] at hall
  exact absurd hall (by decide)

theorem findIdx?_of_any {α : Type} (l : List α) (p : α → Bool) (h : l.any p = true) :
    l.findIdx? p = some (l.findIdx p) := by
  induction l with
  | nil => simp at h
  | cons a t ih =>
    by_cases hpa : p a = true
    · simp [List.findIdx?_cons, List.findIdx_cons, hpa]
    · have hpa' : p a = false := by simpa using hpa
      have ht : t.any p = true := by simpa [List.any_cons, hpa'] using h
      simp [List.findIdx?_cons, List.findIdx_cons, hpa', ih ht]

theorem findIdx?_of_not_any {α : Type} (l : List α) (p : α → Bool) (h : l.any p = false) :
    l.findIdx? p = none := by
  induction l with
  | nil => simp
  | cons a t ih =>
    have hpa : p a = false := by
      cases hp : p a
      · rfl
      · rw [List.any_cons, hp] at h; simp at h
    have ht : t.any p = false := by simpa [List.any_cons, hpa] using h
    simp [List.findIdx?_cons, hpa, ih ht]

/-- C6: `CommandManager::parse` takes the first text token, strips one
optional trailing `!` as the bang flag, fails with `InvalidCommandName` when
the remaining name is empty, and otherwise resolves through `find_command`,
which searches the macro table first, then the request table, then the
builtin table (a builtin matches by alias or primary name); an unresolved
name fails with `CommandNotFound`. -/
theorem parse_resolution (cm : CommandManager) (text : List Char)
    (tok : CommandToken) (it : CommandTokenIter) (name : List Char)
    (hfirst : (CommandTokenIter.new text).next = some ((CommandTokenKind.Text, tok), it)) :
    ((tok.asStr text).getLast? = some '!' →
      ((tok.asStr text).dropLast = [] →
        cm.parse text = .error (.InvalidCommandName tok)) ∧
      ((tok.asStr text).dropLast ≠ [] →
        cm.parse text =
          match cm.find_command (tok.asStr text).dropLast with
          | some src => .ok (src, ⟨true, it, 0⟩)
          | none => .error (.CommandNotFound tok))) ∧
    ((tok.asStr text).getLast? ≠ some '!' →
      (tok.asStr text = [] → cm.parse text = .error (.InvalidCommandName tok)) ∧
      (tok.asStr text ≠ [] →
        cm.parse text =
          match cm.find_command (tok.asStr text) with
          | some src => .ok (src, ⟨false, it, 0⟩)
          | none => .error (.CommandNotFound tok))) ∧
    (cm.macro_commands.any (fun c => c.name = name) = true →
      cm.find_command name =
        some (.Macro (cm.macro_commands.findIdx (fun c => c.name = name)))) ∧
    (cm.macro_commands.any (fun c => c.name = name) = false →
      cm.request_commands.any (fun c => c.name = name) = true →
      cm.find_command name =
        some (.Request (cm.request_commands.findIdx (fun c => c.name = name)))) ∧
    (cm.macro_commands.any (fun c => c.name = name) = false →
      cm.request_commands.any (fun c => c.name = name) = false →
      cm.builtin_commands.any (fun c => c.aliasName = name || c.name = name) = true →
      cm.find_command name =
        some (.Builtin (cm.builtin_commands.findIdx
          (fun c => c.aliasName = name || c.name = name)))) ∧
    (cm.macro_commands.any (fun c => c.name = name) = false →
      cm.request_commands.any (fun c => c.name = name) = false →
      cm.builtin_commands.any (fun c => c.aliasName = name || c.name = name) = false →
      cm.find_command name = none) := by
  refine ⟨?_, ?_, ?_, ?_, ?_, ?_⟩
  · intro hbang
    constructor
    · intro hempty
      unfold CommandManager.parse
      dsimp only
      rw [hfirst]
      simp [hbang, hempty]
    · intro hne
      unfold CommandManager.parse
      dsimp only
      rw [hfirst]
      simp [hbang, hne]
  · intro hnotbang
    constructor
    · intro hempty
      unfold CommandManager.parse
      dsimp only
      rw [hfirst]
      simp [hnotbang, hempty]
    · intro hne
      unfold CommandManager.parse
      dsimp only
      rw [hfirst]
      simp [hnotbang, hne]
  · intro hm
    unfold CommandManager.find_command
    rw [findIdx?_of_any _ _ hm]
  · intro hm hr
    unfold CommandManager.find_command
    rw [findIdx?_of_not_any _ _ hm, findIdx?_of_any _ _ hr]
  · intro hm hr hb
    unfold CommandManager.find_command
    rw [findIdx?_of_not_any _ _ hm, findIdx?_of_not_any _ _ hr, findIdx?_of_any _ _ hb]
  · intro hm hr hb
    unfold CommandManager.find_command
    rw [findIdx?_of_not_any _ _ hm, findIdx?_of_not_any _ _ hr, findIdx?_of_not_any _ _ hb]

/-- A concrete manager for the C6 witness: macro `x`, request `x` (the macro
must win), builtin `command-name` aliased `c`. -/
def cm6 : CommandManager :=
  { builtin_commands := [⟨"command-name".toList, "c".toList⟩]
    macro_commands := [⟨"x".toList, [], "b".toList⟩]
    request_commands := [⟨"x".toList, 0⟩]
    history := [] }

/-- Witness for C6: `"x! arg"` resolves to the macro (not the request of the
same name), with the bang stripped and the iterator left after the name. -/
theorem parse_resolution_witness :
    cm6.find_command "x".toList = some (.Macro 0) ∧
    cm6.parse "x! arg".toList =
      .ok (.Macro 0, ⟨true, ⟨" arg".toList, 6⟩, 0⟩) := by
  have h := parse_resolution cm6 "x! arg".toList ⟨0, 2⟩ ⟨" arg".toList, 6⟩
    "x".toList (by decide)
  have hm : cm6.find_command "x".toList = some (.Macro 0) := by
    have := h.2.2.1 (by decide)
    simpa using this
  refine ⟨hm, ?_⟩
  have hb := (h.1 (by decide)).2 (by decide)
  rw [hb]
  have hdl : ("x!".toList).dropLast = "x".toList := by decide
  have : CommandToken.asStr ⟨0, 2⟩ "x! arg".toList = "x!".toList := by decide
  rw [this, hdl, hm]

/-- C1: on input `"{x}"` the token iterator emits one `Text` token with
range `[1, 1)`, whose slice of the input is empty — not the balanced
interior `"x" = s[1..2]`.  The brace branch of `CommandTokenIter::next`
builds `CommandToken { from, to: i }` with `i` relative to the character
after `{`, where the quote branch builds `to: from + i`; the slice therefore
does not map back to the token's logical text. -/
theorem brace_token_range_bug :
    commandTokens 8 (CommandTokenIter.new "\x7bx\x7d".toList) =
      [(CommandTokenKind.Text, ⟨1, 1⟩)] ∧
    CommandToken.asStr ⟨1, 1⟩ "\x7bx\x7d".toList = [] ∧
    CommandToken.asStr ⟨1, 2⟩ "\x7bx\x7d".toList = "x".toList := by decide

/-- The parsed arguments of `"c -switch -option=value aaa"` under the test
module's command table: everything after the resolved name `c`. -/
def argsC2 : CommandArgs := ⟨false, ⟨" -switch -option=value aaa".toList, 27⟩, 0⟩

/-- C2: for `"c -switch -option=value aaa"` with flag spec
`[switch, option]`, `get_flags` binds `option` to `"value"` and the
positionals are exactly `["aaa"]`, but `switch` — a valueless flag — is
bound to the token of the *following flag* `"-option"` (range `[9, 16)` of
the raw tail), not to the empty string: the `Flag`-follows-`Flag` arm of
`get_flags` stores the next flag's token as the value after rewinding the
iterator. -/
theorem valueless_flag_binds_next_flag_token :
    testCommands.parse "c -switch -option=value aaa".toList =
      .ok (.Builtin 0, argsC2) ∧
    argsC2.get_flags [("switch".toList, none), ("option".toList, none)] 30 =
      some (.ok [("switch".toList, some (.Token ⟨9, 16⟩)),
                 ("option".toList, some (.Token ⟨17, 22⟩))]) ∧
    CommandToken.asStr ⟨9, 16⟩ " -switch -option=value aaa".toList =
      "-option".toList ∧
    CommandToken.asStr ⟨17, 22⟩ " -switch -option=value aaa".toList =
      "value".toList ∧
    collectPositionals 30 argsC2 = some (.ok [⟨24, 27⟩]) ∧
    CommandToken.asStr ⟨24, 27⟩ "c -switch -option=value aaa".toList =
      "aaa".toList ∧
    "-option".toList ≠ ([] : List Char) := by decide

/-- The macro of the C3 failing input: one formal parameter, body `"cmd"`. -/
def macroM : MacroCommand := ⟨"m".toList, ["p".toList], "cmd".toList⟩

/-- C3: evaluating an invocation of a macro with a non-empty parameter list
never binds or substitutes the parameters: the substitution loop in
`CommandManager::eval` is commented out (`// TODO: macro params`), so
`assert_empty` rejects any positional argument with `TooManyArguments`
(here the token `"xyz"` at `[2, 5)` of `"m xyz"`), and an invocation
without arguments evaluates the body verbatim, formal parameters
unbound. -/
theorem macro_params_not_substituted :
    evalMacroPrep macroM ⟨false, ⟨" xyz".toList, 5⟩, 0⟩ 30 =
      some (.error (.TooManyArguments ⟨2, 5⟩ 0)) ∧
    evalMacroPrep macroM ⟨false, ⟨[], 1⟩, 0⟩ 30 = some (.ok "cmd".toList) ∧
    macroM.params ≠ [] := by decide

/-- Does the key-parser result stream contain an error item? -/
def keyResultsHaveError (results : List (Except Unit Key)) : Bool :=
  results.any (fun r => match r with | .error _ => true | .ok _ => false)

/-- The keys of the `Ok` items of the result stream. -/
def keyResultsKeys (results : List (Except Unit Key)) : List Key :=
  results.filterMap (fun r => match r with | .ok k => some k | .error _ => none)

theorem bufferedKeysParseGo_eq (results : List (Except Unit Key)) :
    ∀ buf0 extra : List Key,
      bufferedKeysParseGo buf0.length (buf0 ++ extra) results =
        if keyResultsHaveError results then (buf0, none)
        else (buf0 ++ extra ++ keyResultsKeys results, some buf0.length) := by
  induction results with
  | nil => intro buf0 extra; simp [bufferedKeysParseGo, keyResultsHaveError, keyResultsKeys]
  | cons r rest ih =>
    intro buf0 extra
    match r with
    | .ok k =>
      have hsplit : (buf0 ++ extra) ++ [k] = buf0 ++ (extra ++ [k]) := by simp
      have hcons : keyResultsKeys (Except.ok k :: rest) = k :: keyResultsKeys rest := by
        simp [keyResultsKeys]
      have hhe : keyResultsHaveError (Except.ok k :: rest) = keyResultsHaveError rest := by
        simp [keyResultsHaveError]
      simp only [bufferedKeysParseGo, hsplit, ih buf0 (extra ++ [k]), hhe, hcons]
      cases keyResultsHaveError rest
      · simp
      · simp
    | .error e =>
      simp [bufferedKeysParseGo, keyResultsHaveError, List.take_left]

/-- C8: `BufferedKeys::parse` is atomic: if any item of the key-spec parse
stream is an error, the buffer comes back exactly as it was (in particular
with its pre-parse length); if all items parse, exactly the parsed keys have
been appended and the returned iterator starts at the pre-parse length. -/
theorem buffered_keys_parse_rollback (buf : List Key)
    (results : List (Except Unit Key)) :
    bufferedKeysParse buf results =
      if keyResultsHaveError results then (buf, none)
      else (buf ++ keyResultsKeys results, some buf.length) := by
  have h := bufferedKeysParseGo_eq results buf []
  simp only [List.append_nil] at h
  simpa [bufferedKeysParse] using h

/-- `executeKeysLoop` truncates to the start index whenever it returns a
non-`Continue` flow. -/
theorem executeKeysLoop_nonContinue
    (k : List Key → Nat → Nat × Option EditorFlow) :
    ∀ fuel buffered s i buf' flow,
      executeKeysLoop k fuel buffered s i = some (buf', flow) →
      flow ≠ EditorFlow.Continue → buf' = buffered.take s := by
  intro fuel
  induction fuel with
  | zero => intro _ _ _ _ _ h; simp [executeKeysLoop] at h
  | succ n ih =>
    intro buffered s i buf' flow h hflow
    rw [executeKeysLoop] at h
    by_cases hend : i = buffered.length
    · rw [if_pos hend] at h
      injection h with h'
      injection h' with h1 h2
      exact absurd h2.symm hflow
    · rw [if_neg hend] at h
      rcases hk : k buffered i with ⟨i', res⟩
      rw [hk] at h
      match res with
      | none => injection h with h'; injection h' with h1 h2; exact absurd h2.symm hflow
      | some .Continue => exact ih buffered s i' buf' flow h hflow
      | some .Suspend => injection h with h'; injection h' with h1 h2; rw [h1]
      | some .Quit => injection h with h'; injection h' with h1 h2; rw [h1]
      | some .QuitAll => injection h with h'; injection h' with h1 h2; rw [h1]

/-- If the mode never yields (`on_keys` never returns `None`), every return
of `executeKeysLoop` truncates to the start index. -/
theorem executeKeysLoop_noYield
    (k : List Key → Nat → Nat × Option EditorFlow)
    (hk : ∀ b i, (k b i).2 ≠ none) :
    ∀ fuel buffered s i buf' flow,
      executeKeysLoop k fuel buffered s i = some (buf', flow) →
      buf' = buffered.take s := by
  intro fuel
  induction fuel with
  | zero => intro _ _ _ _ _ h; simp [executeKeysLoop] at h
  | succ n ih =>
    intro buffered s i buf' flow h
    rw [executeKeysLoop] at h
    by_cases hend : i = buffered.length
    · rw [if_pos hend] at h
      injection h with h'
      injection h' with h1 h2
      rw [h1]
    · rw [if_neg hend] at h
      rcases hki : k buffered i with ⟨i', res⟩
      rw [hki] at h
      match res with
      | none => exact absurd (by rw [hki]) (hk buffered i)
      | some .Continue => exact ih buffered s i' buf' flow h
      | some .Suspend => injection h with h'; injection h' with h1 h2; rw [h1]
      | some .Quit => injection h with h'; injection h' with h1 h2; rw [h1]
      | some .QuitAll => injection h with h'; injection h' with h1 h2; rw [h1]

/-- C7 (amended): a top-level `execute_keys` dispatch truncates the buffered
keys back to the start-of-call index `s` on return, provided the key-map
matcher did not answer `Prefix` and the mode never yields (`on_keys` never
returns `None`); the `Prefix` and yield returns leave the buffer as-is (the
counterexample), so bounded to the remaining outcomes the truncation holds
for batch exhaustion, `Quit`, `QuitAll` and `Suspend` alike. -/
theorem execute_keys_truncation (m : List Key → MatchResult)
    (k : List Key → Nat → Nat × Option EditorFlow) (fuel : Nat)
    (buffered : List Key) (index : Nat) (buf' : List Key) (flow : EditorFlow)
    (hidx : index ≤ buffered.length)
    (hnoyield : ∀ b i, (k b i).2 ≠ none)
    (hnopfx : m (buffered.drop index) ≠ MatchResult.Prefix)
    (hres : execute_keys m k fuel buffered index = some (buf', flow)) :
    buf'.length = index := by
  unfold execute_keys at hres
  dsimp only at hres
  rcases hm : m (buffered.drop index) with _ | _ | ks
  · rw [hm] at hres
    have := executeKeysLoop_noYield k hnoyield fuel buffered index index buf' flow hres
    rw [this, List.length_take]
    omega
  · exact absurd hm hnopfx
  · rw [hm] at hres
    have := executeKeysLoop_noYield k hnoyield fuel
      (buffered.take index ++ ks) index index buf' flow hres
    rw [this, List.length_take, List.length_append, List.length_take]
    omega

/-- C7 counterexample: when the key-map matcher answers `Prefix`, the
dispatch returns with the buffer *not* truncated to the start-of-call index
(here length 1, start index 0) — the claim's "for every possible dispatch
outcome" fails. -/
theorem execute_keys_prefix_counterexample :
    execute_keys (fun _ => MatchResult.Prefix)
        (fun _ i => (i + 1, some EditorFlow.Continue)) 4 [⟨7⟩] 0 =
      some ([⟨7⟩], EditorFlow.Continue) ∧
    ([⟨7⟩] : List Key).length ≠ 0 := by
  exact ⟨rfl, by decide⟩

/-- Witness for C7 (amended), at a one-key buffer with a matcher that
answers `None` and a mode that consumes one key per call. -/
theorem execute_keys_truncation_witness :
    (0 ≤ ([⟨7⟩] : List Key).length) ∧ ([] : List Key).length = 0 :=
  ⟨by decide,
    execute_keys_truncation (fun _ => MatchResult.None)
      (fun _ i => (i + 1, some EditorFlow.Continue)) 3 [⟨7⟩] 0 []
      EditorFlow.Continue (by decide) (fun b i => by simp) (by simp) rfl⟩

/-- Heads of `dropWhile`: the first remaining character fails the predicate. -/
theorem dropWhile_head_false {p : Char → Bool} :
    ∀ (s : List Char) (c : Char) (cs : List Char),
      s.dropWhile p = c :: cs → p c = false := by
  intro s
  induction s with
  | nil => intro c cs h; simp at h
  | cons a t ih =>
    intro c cs h
    rw [List.dropWhile_cons] at h
    by_cases hpa : p a = true
    · rw [if_pos hpa] at h; exact ih c cs h
    · rw [if_neg hpa] at h
      injection h with h1 h2
      rw [← h1]
      simpa using hpa

/-- Every yield of the src/src scan extends the committed prefix: the
command is `seen.reverse` followed by a prefix of the remaining input. -/
theorem scanSrc_shape :
    ∀ fuel seen rest cmd r, scanSrc fuel seen rest = .yields cmd r →
      ∃ u, cmd = seen.reverse ++ u ∧ u <+: rest := by
  intro fuel
  induction fuel with
  | zero => intro seen rest cmd r h; simp [scanSrc] at h
  | succ n ih =>
    intro seen rest cmd r h
    match rest with
    | [] =>
      simp only [scanSrc] at h
      injection h with h1 h2
      exact ⟨[], by simp [h1.symm], List.nil_prefix⟩
    | c :: cs =>
      simp only [scanSrc] at h
      by_cases h1 : c = '\n'
      · rw [if_pos h1] at h
        by_cases h2 : seen = []
        · rw [if_pos h2] at h; exact absurd h (by simp)
        · rw [if_neg h2] at h
          injection h with hcmd hrest
          exact ⟨[], by simp [hcmd.symm], List.nil_prefix⟩
      · rw [if_neg h1] at h
        by_cases h2 : c = ';'
        · rw [if_pos h2] at h
          by_cases h3 : seen = []
          · rw [if_pos h3] at h; exact absurd h (by simp)
          · rw [if_neg h3] at h
            injection h with hcmd hrest
            exact ⟨[], by simp [hcmd.symm], List.nil_prefix⟩
        · rw [if_neg h2] at h
          by_cases h3 : c = '{'
          · rw [if_pos h3] at h
            rcases hfb : find_balanced cs '{' '}' with _ | j
            · rw [hfb] at h
              injection h with hcmd hrest
              exact ⟨c :: cs, by simp [hcmd.symm], List.prefix_refl _⟩
            · rw [hfb] at h
              obtain ⟨u, hu, hpre⟩ := ih _ _ _ _ h
              obtain ⟨w, hw⟩ := hpre
              refine ⟨c :: (cs.take (j + 1) ++ u), ?_, ?_⟩
              · rw [hu]; simp
              · exact ⟨w, by
                  rw [List.cons_append, List.append_assoc, hw, List.take_append_drop]⟩
          · rw [if_neg h3] at h
            by_cases h4 : c = '#'
            · rw [if_pos h4] at h
              by_cases h5 : List.reverse seen = []
              · rw [if_pos h5] at h; exact absurd h (by simp)
              · rw [if_neg h5] at h
                injection h with hcmd hrest
                exact ⟨[], by simp [hcmd.symm], List.nil_prefix⟩
            · rw [if_neg h4] at h
              obtain ⟨u, hu, hpre⟩ := ih _ _ _ _ h
              obtain ⟨w, hw⟩ := hpre
              refine ⟨c :: u, ?_, ?_⟩
              · rw [hu]; simp
              · exact ⟨w, by simp [← hw]⟩

/-- A yield of the src/src scan is non-empty unless the scan started on an
already-empty input with nothing committed. -/
theorem scanSrc_nonempty :
    ∀ fuel seen rest cmd r, scanSrc fuel seen rest = .yields cmd r →
      (seen = [] ∧ rest = []) ∨ cmd ≠ [] := by
  intro fuel
  induction fuel with
  | zero => intro seen rest cmd r h; simp [scanSrc] at h
  | succ n ih =>
    intro seen rest cmd r h
    match rest with
    | [] =>
      simp only [scanSrc] at h
      injection h with h1 h2
      by_cases hs : seen = []
      · exact Or.inl ⟨hs, rfl⟩
      · exact Or.inr (by simp [← h1, hs])
    | c :: cs =>
      simp only [scanSrc] at h
      by_cases h1 : c = '\n'
      · rw [if_pos h1] at h
        by_cases h2 : seen = []
        · rw [if_pos h2] at h; exact absurd h (by simp)
        · rw [if_neg h2] at h
          injection h with hcmd hrest
          exact Or.inr (by simp [← hcmd, h2])
      · rw [if_neg h1] at h
        by_cases h2 : c = ';'
        · rw [if_pos h2] at h
          by_cases h3 : seen = []
          · rw [if_pos h3] at h; exact absurd h (by simp)
          · rw [if_neg h3] at h
            injection h with hcmd hrest
            exact Or.inr (by simp [← hcmd, h3])
        · rw [if_neg h2] at h
          by_cases h3 : c = '{'
          · rw [if_pos h3] at h
            rcases hfb : find_balanced cs '{' '}' with _ | j
            · rw [hfb] at h
              injection h with hcmd hrest
              exact Or.inr (by simp [← hcmd])
            · rw [hfb] at h
              rcases ih _ _ _ _ h with ⟨hseen, _⟩ | hne
              · exact absurd hseen (by simp)
              · exact Or.inr hne
          · rw [if_neg h3] at h
            by_cases h4 : c = '#'
            · rw [if_pos h4] at h
              by_cases h5 : List.reverse seen = []
              · rw [if_pos h5] at h; exact absurd h (by simp)
              · rw [if_neg h5] at h
                injection h with hcmd hrest
                exact Or.inr (by rw [← hcmd]; exact h5)
            · rw [if_neg h4] at h
              rcases ih _ _ _ _ h with ⟨hseen, _⟩ | hne
              · exact absurd hseen (by simp)
              · exact Or.inr hne

/-- Every yield of the lib scan extends the committed prefix: the command is
`seen.reverse` followed by a prefix of the remaining input. -/
theorem scanLib_shape :
    ∀ fuel seen rest cmd r, scanLib fuel seen rest = .yields cmd r →
      ∃ u, cmd = seen.reverse ++ u ∧ u <+: rest := by
  intro fuel
  induction fuel with
  | zero => intro seen rest cmd r h; simp [scanLib] at h
  | succ n ih =>
    intro seen rest cmd r h
    match rest with
    | [] =>
      simp only [scanLib] at h
      injection h with h1 h2
      exact ⟨[], by simp [h1.symm], List.nil_prefix⟩
    | c :: cs =>
      simp only [scanLib] at h
      by_cases h1 : c = '\n'
      · rw [if_pos h1] at h
        by_cases h2 : seen = []
        · rw [if_pos h2] at h; exact absurd h (by simp)
        · rw [if_neg h2] at h
          injection h with hcmd hrest
          exact ⟨[], by simp [hcmd.symm], List.nil_prefix⟩
      · rw [if_neg h1] at h
        by_cases h2 : c = '\\'
        · rw [if_pos h2] at h
          match cs with
          | [] => exact absurd h (by simp)
          | d :: ds =>
            obtain ⟨u, hu, hpre⟩ := ih _ _ _ _ h
            obtain ⟨w, hw⟩ := hpre
            refine ⟨c :: d :: u, ?_, ?_⟩
            · rw [hu]; simp
            · exact ⟨w, by simp [hw]⟩
        · rw [if_neg h2] at h
          by_cases h3 : c = '#'
          · rw [if_pos h3] at h
            by_cases h4 : List.reverse seen = []
            · rw [if_pos h4] at h; exact absurd h (by simp)
            · rw [if_neg h4] at h
              injection h with hcmd hrest
              exact ⟨[], by simp [hcmd.symm], List.nil_prefix⟩
          · rw [if_neg h3] at h
            obtain ⟨u, hu, hpre⟩ := ih _ _ _ _ h
            obtain ⟨w, hw⟩ := hpre
            refine ⟨c :: u, ?_, ?_⟩
            · rw [hu]; simp
            · exact ⟨w, by simp [← hw]⟩

/-- A yield of the lib scan is non-empty unless the scan started on an
already-empty input with nothing committed. -/
theorem scanLib_nonempty :
    ∀ fuel seen rest cmd r, scanLib fuel seen rest = .yields cmd r →
      (seen = [] ∧ rest = []) ∨ cmd ≠ [] := by
  intro fuel
  induction fuel with
  | zero => intro seen rest cmd r h; simp [scanLib] at h
  | succ n ih =>
    intro seen rest cmd r h
    match rest with
    | [] =>
      simp only [scanLib] at h
      injection h with h1 h2
      by_cases hs : seen = []
      · exact Or.inl ⟨hs, rfl⟩
      · exact Or.inr (by simp [← h1, hs])
    | c :: cs =>
      simp only [scanLib] at h
      by_cases h1 : c = '\n'
      · rw [if_pos h1] at h
        by_cases h2 : seen = []
        · rw [if_pos h2] at h; exact absurd h (by simp)
        · rw [if_neg h2] at h
          injection h with hcmd hrest
          exact Or.inr (by simp [← hcmd, h2])
      · rw [if_neg h1] at h
        by_cases h2 : c = '\\'
        · rw [if_pos h2] at h
          match cs with
          | [] => exact absurd h (by simp)
          | d :: ds =>
            rcases ih _ _ _ _ h with ⟨hseen, _⟩ | hne
            · exact absurd hseen (by simp)
            · exact Or.inr hne
        · rw [if_neg h2] at h
          by_cases h3 : c = '#'
          · rw [if_pos h3] at h
            by_cases h4 : List.reverse seen = []
            · rw [if_pos h4] at h; exact absurd h (by simp)
            · rw [if_neg h4] at h
              injection h with hcmd hrest
              exact Or.inr (by rw [← hcmd]; exact h4)
          · rw [if_neg h3] at h
            rcases ih _ _ _ _ h with ⟨hseen, _⟩ | hne
            · exact absurd hseen (by simp)
            · exact Or.inr hne

/-- What C9 asserts of every yielded command: non-empty, and the first
character is not ASCII whitespace. -/
def yieldedCommandOk : List Char → Bool
  | [] => false
  | c :: _ => !isAsciiWhitespace c

/-- Every command yielded by a src/src `CommandIter::next` call is non-empty
and starts with a non-whitespace character. -/
theorem cmdNextSrc_ok :
    ∀ fuel s cmd r, cmdNextSrc fuel s = .yields cmd r →
      yieldedCommandOk cmd = true := by
  intro fuel
  induction fuel with
  | zero => intro s cmd r h; simp [cmdNextSrc] at h
  | succ n ih =>
    intro s cmd r h
    rw [cmdNextSrc] at h
    by_cases ht : (trimStart s).isEmpty = true
    · rw [if_pos ht] at h; exact absurd h (by simp)
    · rw [if_neg ht] at h
      rcases hscan : scanSrc (n + 1) [] (trimStart s) with ⟨c', r'⟩ | r' | _ | _ <;>
        rw [hscan] at h
      · injection h with hcmd hrest
        subst hcmd
        rcases scanSrc_nonempty _ _ _ _ _ hscan with ⟨_, hts⟩ | hne
        · rw [hts] at ht; simp at ht
        · obtain ⟨u, hu, hpre⟩ := scanSrc_shape _ _ _ _ _ hscan
          simp only [List.reverse_nil, List.nil_append] at hu
          rw [← hu] at hpre
          rcases hcc : c' with _ | ⟨c0, u'⟩
          · exact absurd hcc hne
          · rw [hcc] at hpre
            obtain ⟨w, hw⟩ := hpre
            have hts : trimStart s = c0 :: (u' ++ w) := by rw [← hw]; simp
            have hc0 : isAsciiWhitespace c0 = false :=
              dropWhile_head_false s c0 (u' ++ w) hts
            simp [yieldedCommandOk, hc0]
      · exact ih _ _ _ h
      · exact absurd h (by simp)
      · exact absurd h (by simp)

/-- Every command yielded by a lib `CommandIter::next` call is non-empty and
starts with a non-whitespace character. -/
theorem cmdNextLib_ok :
    ∀ fuel s cmd r, cmdNextLib fuel s = .yields cmd r →
      yieldedCommandOk cmd = true := by
  intro fuel
  induction fuel with
  | zero => intro s cmd r h; simp [cmdNextLib] at h
  | succ n ih =>
    intro s cmd r h
    rw [cmdNextLib] at h
    by_cases ht : (trimStart s).isEmpty = true
    · rw [if_pos ht] at h; exact absurd h (by simp)
    · rw [if_neg ht] at h
      rcases hscan : scanLib (n + 1) [] (trimStart s) with ⟨c', r'⟩ | r' | _ | _ <;>
        rw [hscan] at h
      · injection h with hcmd hrest
        subst hcmd
        rcases scanLib_nonempty _ _ _ _ _ hscan with ⟨_, hts⟩ | hne
        · rw [hts] at ht; simp at ht
        · obtain ⟨u, hu, hpre⟩ := scanLib_shape _ _ _ _ _ hscan
          simp only [List.reverse_nil, List.nil_append] at hu
          rw [← hu] at hpre
          rcases hcc : c' with _ | ⟨c0, u'⟩
          · exact absurd hcc hne
          · rw [hcc] at hpre
            obtain ⟨w, hw⟩ := hpre
            have hts : trimStart s = c0 :: (u' ++ w) := by rw [← hw]; simp
            have hc0 : isAsciiWhitespace c0 = false :=
              dropWhile_head_false s c0 (u' ++ w) hts
            simp [yieldedCommandOk, hc0]
      · exact ih _ _ _ h
      · exact absurd h (by simp)
      · exact absurd h (by simp)

/-- C9: for every input script (and any fuel), every command string yielded
by the script iterator — in both the src/src and the lib generation of
`CommandIter` — is non-empty and its first character is not ASCII
whitespace. -/
theorem script_commands_nonempty_nonws (fuel : Nat) (s : List Char) :
    (commandIterSrc fuel s).all yieldedCommandOk = true ∧
    (commandIterLib fuel s).all yieldedCommandOk = true := by
  constructor
  · induction fuel generalizing s with
    | zero => rfl
    | succ n ih =>
      rw [commandIterSrc]
      rcases h : cmdNextSrc (n + 1) s with _ | ⟨cmd, rest⟩ | _ | _ <;> simp only [h]
      · rfl
      · rw [List.all_cons, cmdNextSrc_ok _ _ _ _ h, ih rest]; rfl
      · rfl
      · rfl
  · induction fuel generalizing s with
    | zero => rfl
    | succ n ih =>
      rw [commandIterLib]
      rcases h : cmdNextLib (n + 1) s with _ | ⟨cmd, rest⟩ | _ | _ <;> simp only [h]
      · rfl
      · rw [List.all_cons, cmdNextLib_ok _ _ _ _ h, ih rest]; rfl
      · rfl
      · rfl

/-- C4 (amended, lib generation): when the lib `CommandIter` scan reaches an
unescaped `\` followed by `\n`, it absorbs both characters into the current
command and continues scanning after them — it never splits the command at
that newline.  (A `\` that is itself escaped is consumed by the skip of the
preceding `\` and does not continue the line, matching "unescaped".) -/
theorem lib_backslash_continuation (fuel : Nat) (seen cs : List Char) :
    scanLib (fuel + 1) seen ('\\' :: '\n' :: cs) =
      scanLib fuel ('\n' :: '\\' :: seen) cs := by
  rw [scanLib, if_neg (by decide : ¬('\\' : Char) = '\n'),
    if_pos (rfl : ('\\' : Char) = '\\')]

/-- C4 counterexample: the src/src `CommandIter` has no backslash handling
at all; on `"a\\\nb"` (backslash immediately before the newline) it yields
two commands, splitting at that newline. -/
theorem src_iter_splits_after_backslash :
    commandIterSrc 8 "a\\\nb".toList = ["a\\".toList, "b".toList] ∧
    "a\\".toList ++ '\n' :: "b".toList = "a\\\nb".toList ∧
    ("a\\\nb".toList ≠ []) := by decide
